import Mathlib

/-!
Verification of the wealth-tax simulation pipeline (`baseline_simulation.py`).

All monetary quantities are embedded as exact rationals (`ℚ`); the Python
code uses IEEE floats, so float-exact claims are read as their exact-rational
counterparts and tolerance claims are implied by exact equalities.
-/

set_option maxRecDepth 10000

/-- One bracket of a regional wealth-tax scale: `(lower, upper, rate)`.
`upper = none` models the Python `float("inf")` upper bound. -/
structure TaxBracket where
  lower : ℚ
  upper : Option ℚ
  rate : ℚ
deriving DecidableEq

/-- `min(base, upper)` with `upper = none` standing for infinity. -/
def capAt (base : ℚ) : Option ℚ → ℚ
  | none => base
  | some u => min base u

/-- The bracket-accrual loop of `calculate_ip_tax`: for each bracket, if
`base > lower`, accrue `(min(base, upper) - lower) * rate` and continue,
else break (contributing 0 from this bracket on). -/
def taxLoop (base : ℚ) : List TaxBracket → ℚ
  | [] => 0
  | br :: rest =>
      if br.lower < base then (capAt base br.upper - br.lower) * br.rate + taxLoop base rest
      else 0

/-- Well-formedness of a bracket table starting at lower bound `l`:
brackets are strictly ascending and gap-free (each bracket's upper bound is
the next bracket's lower bound), rates are nonnegative, and the table
terminates with an infinite bracket. -/
def chainFromB (l : ℚ) : List TaxBracket → Bool
  | [] => false
  | br :: rest =>
      decide (br.lower = l) && decide (0 ≤ br.rate) &&
        (match br.upper, rest with
         | none, [] => true
         | some u, _ :: _ => decide (l < u) && chainFromB u rest
         | _, _ => false)

/-- Largest rate appearing in a bracket table (0 for the empty table). -/
def maxRate : List TaxBracket → ℚ
  | [] => 0
  | br :: rest => max br.rate (maxRate rest)

/-- `b` does not exceed an optional upper bound (`none` = infinity). -/
def uOK (b : ℚ) : Option ℚ → Prop
  | none => True
  | some u => b ≤ u

instance : ∀ (b : ℚ) (u : Option ℚ), Decidable (uOK b u)
  | _, none => isTrue trivial
  | b, some u => inferInstanceAs (Decidable (b ≤ u))

/-- The `Catalonia` bracket table of `calculate_ip_tax`. -/
def cataloniaBrackets : List TaxBracket :=
  [⟨0, some 167129.45, 0.0021⟩, ⟨167129.45, some 334252.88, 0.00315⟩,
   ⟨334252.88, some 668499.75, 0.00525⟩, ⟨668499.75, some 1336999.5, 0.00945⟩,
   ⟨1336999.5, some 2673999.0, 0.01365⟩, ⟨2673999.0, some 5347998.03, 0.01785⟩,
   ⟨5347998.03, some 10695996.06, 0.02205⟩, ⟨10695996.06, some 19999999.99, 0.02525⟩,
   ⟨19999999.99, none, 0.0348⟩]

/-- The `Madrid` bracket table of `calculate_ip_tax`. -/
def madridBrackets : List TaxBracket :=
  [⟨0, some 167129.45, 0.002⟩, ⟨167129.45, some 334252.88, 0.003⟩,
   ⟨334252.88, some 668499.75, 0.005⟩, ⟨668499.75, some 1336999.5, 0.009⟩,
   ⟨1336999.5, some 2673999.0, 0.013⟩, ⟨2673999.0, some 5347998.03, 0.017⟩,
   ⟨5347998.03, some 10695996.06, 0.021⟩, ⟨10695996.06, none, 0.025⟩]

/-- The `Extremadura` bracket table of `calculate_ip_tax`. -/
def extremaduraBrackets : List TaxBracket :=
  [⟨0, some 167129.45, 0.002⟩, ⟨167129.45, some 334252.88, 0.003⟩,
   ⟨334252.88, some 668499.75, 0.005⟩, ⟨668499.75, some 1336999.5, 0.009⟩,
   ⟨1336999.5, some 2673999.0, 0.013⟩, ⟨2673999.0, some 5347998.03, 0.017⟩,
   ⟨5347998.03, some 10695996.06, 0.021⟩, ⟨10695996.06, none, 0.0375⟩]

/-- The `Galicia` bracket table of `calculate_ip_tax`. -/
def galiciaBrackets : List TaxBracket :=
  [⟨0, some 167129.45, 0.002⟩, ⟨167129.45, some 334252.88, 0.003⟩,
   ⟨334252.88, some 668499.75, 0.005⟩, ⟨668499.75, some 1336999.5, 0.009⟩,
   ⟨1336999.5, some 2673999.0, 0.013⟩, ⟨2673999.0, some 5347998.03, 0.017⟩,
   ⟨5347998.03, some 10695996.06, 0.021⟩, ⟨10695996.06, none, 0.035⟩]

/-- The `Asturias` bracket table of `calculate_ip_tax`. -/
def asturiasBrackets : List TaxBracket :=
  [⟨0, some 167129.45, 0.002⟩, ⟨167129.45, some 334252.88, 0.003⟩,
   ⟨334252.88, some 668499.75, 0.005⟩, ⟨668499.75, some 1336999.5, 0.009⟩,
   ⟨1336999.5, some 2673999.0, 0.013⟩, ⟨2673999.0, some 5347998.03, 0.017⟩,
   ⟨5347998.03, some 10695996.06, 0.021⟩, ⟨10695996.06, none, 0.025⟩]

/-- The `Valencia` bracket table of `calculate_ip_tax`. -/
def valenciaBrackets : List TaxBracket :=
  [⟨0, some 167129.45, 0.0025⟩, ⟨167129.45, some 334252.88, 0.0035⟩,
   ⟨334252.88, some 668499.75, 0.0055⟩, ⟨668499.75, some 1336999.5, 0.0095⟩,
   ⟨1336999.5, some 2673999.0, 0.0135⟩, ⟨2673999.0, some 5347998.03, 0.0175⟩,
   ⟨5347998.03, some 10695996.06, 0.0215⟩, ⟨10695996.06, none, 0.035⟩]

/-- The `default` bracket table of `calculate_ip_tax`. -/
def defaultBrackets : List TaxBracket :=
  [⟨0, some 167129.45, 0.002⟩, ⟨167129.45, some 334252.88, 0.003⟩,
   ⟨334252.88, some 668499.75, 0.005⟩, ⟨668499.75, some 1336999.51, 0.009⟩,
   ⟨1336999.51, some 2673999.01, 0.013⟩, ⟨2673999.01, some 5347998.03, 0.017⟩,
   ⟨5347998.03, some 10695996.06, 0.021⟩, ⟨10695996.06, none, 0.025⟩]

/-- The `regional_scales.get(region, regional_scales["default"])` lookup:
an exact, case-sensitive string match against the capitalized keys, falling
back to the `default` table for every other string (including the key
`"default"` itself, which maps to the same table in the dict). -/
def regionalScales (region : String) : List TaxBracket :=
  if region = "Catalonia" then cataloniaBrackets
  else if region = "Madrid" then madridBrackets
  else if region = "Extremadura" then extremaduraBrackets
  else if region = "Galicia" then galiciaBrackets
  else if region = "Asturias" then asturiasBrackets
  else if region = "Valencia" then valenciaBrackets
  else defaultBrackets

/-- `calculate_ip_tax(base, region)`: accrue bracket tax over the region's
table. -/
def calculate_ip_tax (base : ℚ) (region : String) : ℚ :=
  taxLoop base (regionalScales region)


/-- The national income-tax schedule of `simulate_pit`: pairs
`(upper limit, rate)`, with `none` for the final infinite bracket. -/
def pitSchedule : List (Option ℚ × ℚ) :=
  [(some 12450, 0.19), (some 20200, 0.24), (some 35200, 0.30),
   (some 60000, 0.37), (some 300000, 0.45), (none, 0.47)]

/-- The accumulation loop of `simulate_pit`: per bracket,
`taxable = max(min(income, limit) - last_limit, 0)`, accrue
`taxable * rate`, then advance `last_limit` to this bracket's limit. -/
def pitLoop (income lastLimit : ℚ) : List (Option ℚ × ℚ) → ℚ
  | [] => 0
  | (lim, rate) :: rest =>
      max (capAt income lim - lastLimit) 0 * rate +
        pitLoop income (match lim with | none => income | some l => l) rest

/-- `simulate_pit(income)`: progressive national income tax. -/
def simulate_pit (income : ℚ) : ℚ := pitLoop income 0 pitSchedule

/-- The joint-liability cap step (`run_tax_simulation` and
`apply_tax_cap_and_adjustments`): where `Wealth_Tax + PIT_Liability > Cap`
with `Cap = 0.60 * Income`, replace the wealth tax by
`max(0.2 * Wealth_Tax, Cap - PIT_Liability)`; other rows keep theirs. -/
def apply_tax_cap (wealthTax pitLiability income : ℚ) : ℚ :=
  if 0.60 * income < wealthTax + pitLiability then
    max (0.2 * wealthTax) (0.60 * income - pitLiability)
  else wealthTax

/-- Per-unit inputs of the tax-and-zeroing stages of the pipeline:
region string, (post-bump) income, and eroded taxable base. -/
structure SimUnit where
  region : String
  income : ℚ
  taxableWealthEroded : ℚ

/-- Per-unit outputs of the pipeline relevant to the zeroing overrides:
final wealth tax, final eroded base, and the final dropout/migration flags
of the result table. -/
structure SimOutcome where
  wealthTax : ℚ
  taxableWealthEroded : ℚ
  dropoutFlag : Bool
  migrationExit : Bool

/-- The sequence of wealth-tax assignments a unit undergoes, in the order of
`run_tax_simulation` and `main`:
1. `Wealth_Tax = calculate_ip_tax(Taxable_Wealth_Eroded, Region)`;
2. rows with the first `assign_erosion` dropout draw (`dropout1`) are zeroed;
3. the joint cap step;
4. `main` zeroes rows whose lowercased region is `"madrid"`;
5. the second `assign_erosion` call redraws the `Dropout` column
   (`dropout2`) without touching `Wealth_Tax`;
6. `apply_migration_module` zeroes `Taxable_Wealth_Eroded` and `Wealth_Tax`
   for rows drawn as migration exits (`migExit`).
The Bernoulli draws are oracle inputs of the model. -/
def run_unit_tax_pipeline (u : SimUnit) (dropout1 dropout2 migExit : Bool) : SimOutcome :=
  let wt0 := calculate_ip_tax u.taxableWealthEroded u.region
  let wt1 := if dropout1 then 0 else wt0
  let pit := simulate_pit u.income
  let wt2 := apply_tax_cap wt1 pit u.income
  let wt3 := if u.region.toLower = "madrid" then 0 else wt2
  let wt4 := if migExit then 0 else wt3
  { wealthTax := wt4
    taxableWealthEroded := if migExit then 0 else u.taxableWealthEroded
    dropoutFlag := dropout2
    migrationExit := migExit }

/-- The rows of `reweight_to_match_percentile_shares` after the
`value >= 0` filter (line 114): per-row value-column entry, weight, and the
decile bin assigned by `pd.qcut` on the rank of the value column
(`Wealth_Percentile`, rank-based, ties broken by original order). The bin
assignment is the rank-decile map computed by lines 116 and 117. -/
structure ReweightFrame where
  n : ℕ
  value : ℕ → ℚ
  weight : ℕ → ℚ
  bin : ℕ → ℕ

/-- A bin's `Weighted_Wealth` group sum (line 120). -/
def binWeightedValue (F : ReweightFrame) (k : ℕ) : ℚ :=
  ∑ i ∈ Finset.range F.n, if F.bin i = k then F.value i * F.weight i else 0

/-- `actual_shares.sum()`: the total weighted value over the ten bins. -/
def totalWeightedValue (F : ReweightFrame) : ℚ :=
  ∑ k ∈ Finset.range 10, binWeightedValue F k

/-- The fixed `target_shares` vector of line 123. -/
def targetSharesList : List ℚ :=
  [0.00, 0.01, 0.02, 0.04, 0.07, 0.10, 0.13, 0.18, 0.25, 0.20]

/-- A renormalized target share (line 125): entry `k` divided by the sum. -/
def targetShareN (k : ℕ) : ℚ := targetSharesList.getD k 0 / targetSharesList.sum

/-- A bin's actual share (line 121), as the exact-rational reading of the
float division; on the claims' hypothesis domains the division is
well-defined. -/
def actualShare (F : ReweightFrame) (k : ℕ) : ℚ :=
  binWeightedValue F k / totalWeightedValue F

/-- A bin's `scaling_factor` (line 130). -/
def scalingFactor (F : ReweightFrame) (k : ℕ) : ℚ := targetShareN k / actualShare F k

/-- A row's `Adjusted_Weight` (line 132). -/
def adjustedWeight (F : ReweightFrame) (i : ℕ) : ℚ :=
  F.weight i * scalingFactor F (F.bin i)

/-- Float-aware actual share: `none` models a float division by zero
(`NaN`/`inf` in the Python run). -/
def actualShareOpt (F : ReweightFrame) (k : ℕ) : Option ℚ :=
  if totalWeightedValue F = 0 then none
  else some (binWeightedValue F k / totalWeightedValue F)

/-- Float-aware scaling factor: undefined (`NaN`/`inf`) when the actual
share is undefined or zero. -/
def scalingFactorOpt (F : ReweightFrame) (k : ℕ) : Option ℚ :=
  match actualShareOpt F k with
  | none => none
  | some s => if s = 0 then none else some (targetShareN k / s)

/-- Float-aware adjusted weight: an undefined scaling factor propagates
(as `NaN`/`inf` does through the float multiply of line 132). -/
def adjustedWeightOpt (F : ReweightFrame) (i : ℕ) : Option ℚ :=
  Option.map (fun s => F.weight i * s) (scalingFactorOpt F (F.bin i))

/-- Bin `k` received at least one row, so it appears in the line 120
groupby. -/
def binNonempty (F : ReweightFrame) (k : ℕ) : Prop :=
  ∃ i ∈ Finset.range F.n, F.bin i = k

instance (F : ReweightFrame) (k : ℕ) : Decidable (binNonempty F k) :=
  inferInstanceAs (Decidable (∃ i ∈ Finset.range F.n, F.bin i = k))

/-- `reweight_to_match_percentile_shares`, lines 118 to 132: raises the
`ValueError` of line 128 when the ten rank bins do not all appear in the
groupby, else returns the adjusted weights. -/
def reweight_to_match_percentile_shares (F : ReweightFrame) :
    Except String (ℕ → Option ℚ) :=
  if ∀ k ∈ Finset.range 10, binNonempty F k then
    Except.ok (adjustedWeightOpt F)
  else Except.error "Mismatch in number of percentiles vs target shares."

/-- Bin `k`'s share of total weighted value computed with the adjusted
weights (the quantity the spec's reweighting property constrains). -/
def adjustedBinShare (F : ReweightFrame) (k : ℕ) : ℚ :=
  (∑ i ∈ Finset.range F.n, if F.bin i = k then F.value i * adjustedWeight F i else 0) /
    (∑ i ∈ Finset.range F.n, F.value i * adjustedWeight F i)

/-- A row of the dataframe entering `inject_calibrated_pareto_tail`,
already sorted descending by `Total_Assets` (line 273). -/
structure TailUnit where
  totalAssets : ℚ
  debts : ℚ
  netWealth : ℚ
  debtRatio : ℚ
  weight : ℚ
deriving DecidableEq

/-- `int(n * 0.01)`: size of the top-1% window. -/
def tailTop1Count (n : ℕ) : ℕ := n / 100

/-- `int(n * 0.10)`: size of the top-10% window. -/
def tailTop10Count (n : ℕ) : ℕ := n / 10

/-- `(sample * weights).sum()` for a window: dot product of the Pareto
draws with the window rows' original weights. -/
def windowDot (s : List ℚ) (us : List TailUnit) : ℚ :=
  (List.zipWith (fun a u => a * u.weight) s us).sum

/-- `df["Net_Wealth"].sum()` (line 282): unweighted total net wealth of the
incoming rows. -/
def totalNetWealth (us : List TailUnit) : ℚ := (us.map (·.netWealth)).sum

/-- Replace a window's asset values by `sample * scale` and recompute
`Debts = Total_Assets * Debt_Ratio` and
`Net_Wealth = Total_Assets - Debts` for exactly those rows
(lines 294, 301, 304, 305); all other fields are kept. -/
def paretoRescale (s : List ℚ) (c : ℚ) (us : List TailUnit) : List TailUnit :=
  List.zipWith
    (fun a u =>
      { u with
          totalAssets := a * c
          debts := a * c * u.debtRatio
          netWealth := a * c - a * c * u.debtRatio })
    s us

/-- `inject_calibrated_pareto_tail` on the sorted rows `us`, with the two
Pareto sample vectors `s1` (top 1%) and `s10` (next 9%) as oracle inputs:
each window is rescaled by the single scalar that makes its
`(sample * weights).sum()` hit the target share of the pre-injection total
net wealth (`scale1` and `scale10`, lines 293 and 300), with the next-9%
target `top10_share_target * total - top1_share_target * total`. -/
def inject_calibrated_pareto_tail (us : List TailUnit) (s1 s10 : List ℚ)
    (t1 t10 : ℚ) : List TailUnit :=
  paretoRescale s1
      (t1 * totalNetWealth us /
        windowDot s1 (us.take (tailTop1Count us.length)))
      (us.take (tailTop1Count us.length)) ++
    paretoRescale s10
        ((t10 * totalNetWealth us - t1 * totalNetWealth us) /
          windowDot s10
            ((us.drop (tailTop1Count us.length)).take
              (tailTop10Count us.length - tailTop1Count us.length)))
        ((us.drop (tailTop1Count us.length)).take
          (tailTop10Count us.length - tailTop1Count us.length)) ++
    us.drop (tailTop10Count us.length)

/-- A household row entering `expand_households_to_individuals`, with its
monetary columns and weight. -/
structure HouseholdRow where
  totalAssets : ℚ
  debts : ℚ
  realAssets : ℚ
  financialAssets : ℚ
  businessAssets : ℚ
  income : ℚ
  netWealth : ℚ
  weight : ℚ

/-- Scale every monetary column and the weight of a row by a split
fraction (lines 351 to 355). -/
def scaleUnit (h : HouseholdRow) (r : ℚ) : HouseholdRow :=
  { totalAssets := h.totalAssets * r
    debts := h.debts * r
    realAssets := h.realAssets * r
    financialAssets := h.financialAssets * r
    businessAssets := h.businessAssets * r
    income := h.income * r
    netWealth := h.netWealth * r
    weight := h.weight * r }

/-- The split fractions drawn for a split household (lines 333 to 336):
`(0.8, 0.2)` or `(0.9, 0.1)` with equal probability; the coin is an oracle
input. -/
def splitRatios (coin : Bool) : List ℚ := if coin then [0.8, 0.2] else [0.9, 0.1]

/-- `expand_households_to_individuals` restricted to one household:
it is split into two scaled units when `Net_Wealth > base_threshold` and
the Bernoulli draw fires (`doSplit`, line 324), else kept whole with
fraction 1. -/
def expand_households_to_individuals (h : HouseholdRow) (baseThreshold : ℚ)
    (doSplit coin : Bool) : List HouseholdRow :=
  if baseThreshold < h.netWealth ∧ doSplit = true then
    (splitRatios coin).map (scaleUnit h)
  else [h]

/-- Python `round` (banker's rounding, half to even) on an exact rational;
`int(round(x))` in `generate_scaled_households` and `.round()` on the
share-times-total column. -/
def roundHalfEven (q : ℚ) : ℤ :=
  if q - ⌊q⌋ < 1/2 then ⌊q⌋
  else if (1:ℚ)/2 < q - ⌊q⌋ then ⌊q⌋ + 1
  else if 2 ∣ ⌊q⌋ then ⌊q⌋ else ⌊q⌋ + 1

/-- A row of the region-weights dataframe: region name and population
share. -/
structure RegionShare where
  region : String
  share : ℚ

/-- `total_households = int(round(simulated_population / avg_household_size))`. -/
def totalHouseholdsOf (pop : ℕ) (avgSize : ℚ) : ℤ := roundHalfEven (pop / avgSize)

/-- `(df["Population"] * total_households).round().astype(int)`. -/
def rawCounts (shares : List ℚ) (tot : ℤ) : List ℤ :=
  shares.map (fun s => roundHalfEven (s * (tot : ℚ)))

/-- Maximum of a list of integers (0 for the empty list). -/
def listMaxZ : List ℤ → ℤ
  | [] => 0
  | [x] => x
  | x :: y :: rest => max x (listMaxZ (y :: rest))

/-- `idxmax`: index of the first occurrence of the maximum. -/
def idxmaxZ : List ℤ → ℕ
  | [] => 0
  | [_] => 0
  | x :: y :: rest =>
      if listMaxZ (y :: rest) ≤ x then 0 else idxmaxZ (y :: rest) + 1

/-- The rounding-residual adjustment (lines 236 to 239): when the rounded
counts do not sum to `total_households`, add the difference to the entry
holding the largest count. -/
def adjustCounts (counts : List ℤ) (tot : ℤ) : List ℤ :=
  if tot - counts.sum = 0 then counts
  else counts.set (idxmaxZ counts) (counts.getD (idxmaxZ counts) 0 + tot - counts.sum)

/-- `generate_scaled_households`: computes the adjusted per-region counts
and the `np.repeat` region column (one row per generated household); the
household-size draws fill a column of the same length. -/
def generate_scaled_households (rs : List RegionShare) (pop : ℕ) (avgSize : ℚ) :
    List String × List ℤ :=
  let counts := adjustCounts (rawCounts (rs.map (·.share)) (totalHouseholdsOf pop avgSize))
    (totalHouseholdsOf pop avgSize)
  ((List.zipWith (fun r c => List.replicate c.toNat r.region) rs counts).flatten, counts)

/-- The columns of the dataframe entering
`scale_final_weights_by_taxpayer_counts`: region, `Is_Taxpayer`, and
`Final_Weight`, indexed by row. -/
structure WeightFrame where
  n : ℕ
  region : ℕ → String
  taxpayer : ℕ → Bool
  finalWeight : ℕ → ℚ

/-- Line 789: `df["Region"].str.strip().str.lower()`. -/
def normRegion (f : WeightFrame) : WeightFrame :=
  { f with region := fun i => (f.region i).trim.toLower }

/-- A row is in a target region's mask: `(Region == region) & (Is_Taxpayer == 1)`. -/
def taxpayerMask (f : WeightFrame) (r : String) (i : ℕ) : Prop :=
  f.region i = r ∧ f.taxpayer i = true

instance (f : WeightFrame) (r : String) (i : ℕ) : Decidable (taxpayerMask f r i) :=
  inferInstanceAs (Decidable (f.region i = r ∧ f.taxpayer i = true))

/-- The masked `Final_Weight` sum for one target region. -/
def maskedWeight (f : WeightFrame) (r : String) : ℚ :=
  ∑ i ∈ Finset.range f.n, if taxpayerMask f r i then f.finalWeight i else 0

/-- One iteration of the target loop (lines 793 to 807): skip when the
masked subframe is empty or its total weight is zero, else multiply the
masked rows' scaled weights by `target_count / total_weight`. -/
def scaleStep (f : WeightFrame) (w : ℕ → ℚ) (rt : String × ℚ) : ℕ → ℚ :=
  if ¬ (∃ i ∈ Finset.range f.n, taxpayerMask f rt.1 i) then w
  else if maskedWeight f rt.1 = 0 then w
  else fun i => if taxpayerMask f rt.1 i then w i * (rt.2 / maskedWeight f rt.1) else w i

/-- `scale_final_weights_by_taxpayer_counts`: lowercase the regions, then
fold the target map over the scaled-weight column and write it back to
`Final_Weight`. The masks and masked totals are computed from the original
`Final_Weight` column, which the loop never modifies. -/
def scale_final_weights_by_taxpayer_counts (targets : List (String × ℚ))
    (f : WeightFrame) : WeightFrame :=
  { normRegion f with
      finalWeight := targets.foldl (scaleStep (normRegion f)) (normRegion f).finalWeight }

/-! ### Bracket-tax lemmas -/

/-- Unfolding of `taxLoop` on a cons cell. -/
theorem taxLoop_cons (base : ℚ) (br : TaxBracket) (rest : List TaxBracket) :
    taxLoop base (br :: rest) =
      if br.lower < base then
        (capAt base br.upper - br.lower) * br.rate + taxLoop base rest
      else 0 := rfl

/-- Characterization of `chainFromB` on a cons cell. -/
theorem chainFromB_cons {l : ℚ} {br : TaxBracket} {rest : List TaxBracket} :
    chainFromB l (br :: rest) = true ↔
      br.lower = l ∧ 0 ≤ br.rate ∧
        ((br.upper = none ∧ rest = []) ∨
          ∃ u, br.upper = some u ∧ l < u ∧ chainFromB u rest = true) := by
  cases h : br.upper with
  | none =>
      cases rest with
      | nil => simp [chainFromB, h, and_assoc]
      | cons b bs => simp [chainFromB, h]
  | some u =>
      cases rest with
      | nil => simp [chainFromB, h]
      | cons b bs => simp [chainFromB, h, and_assoc]

/-- Below the table's starting point the accrued tax is zero. -/
theorem taxLoop_zero_of_le {bs : List TaxBracket} {l base : ℚ}
    (hc : chainFromB l bs = true) (hb : base ≤ l) : taxLoop base bs = 0 := by
  cases bs with
  | nil => rfl
  | cons br rest =>
      obtain ⟨hlow, -, -⟩ := chainFromB_cons.mp hc
      rw [taxLoop_cons, if_neg (not_lt.mpr (le_of_le_of_eq hb hlow.symm))]

/-- Every bracket of a chain sits at or above the chain's starting point. -/
theorem chain_le_lower {bs : List TaxBracket} {l : ℚ} {br0 : TaxBracket}
    (hc : chainFromB l bs = true) (hm : br0 ∈ bs) : l ≤ br0.lower := by
  induction bs generalizing l with
  | nil => cases hm
  | cons br rest ih =>
      obtain ⟨hlow, -, hrest⟩ := chainFromB_cons.mp hc
      rcases List.mem_cons.mp hm with heq | hmem
      · exact le_of_eq (heq ▸ hlow).symm
      · rcases hrest with ⟨-, hnil⟩ | ⟨u, -, hlu, hcr⟩
        · subst hnil; cases hmem
        · exact le_trans (le_of_lt hlu) (ih hcr hmem)

/-- The accrued tax is nonnegative on a valid table. -/
theorem taxLoop_nonneg {bs : List TaxBracket} {l base : ℚ}
    (hc : chainFromB l bs = true) : 0 ≤ taxLoop base bs := by
  induction bs generalizing l with
  | nil => exact le_refl 0
  | cons br rest ih =>
      obtain ⟨hlow, hr, hrest⟩ := chainFromB_cons.mp hc
      rw [taxLoop_cons]
      split
      · next hguard =>
          rcases hrest with ⟨hupnone, hnil⟩ | ⟨u, hup, hlu, hcr⟩
          · subst hnil
            rw [hupnone]
            simp only [capAt, taxLoop]
            have h1 : 0 ≤ (base - br.lower) * br.rate :=
              mul_nonneg (by linarith) hr
            linarith
          · rw [hup]
            simp only [capAt]
            have h0 : br.lower < u := by rw [hlow]; exact hlu
            have h1 : br.lower < min base u := lt_min hguard h0
            have h2 : 0 ≤ (min base u - br.lower) * br.rate :=
              mul_nonneg (by linarith) hr
            have h3 : 0 ≤ taxLoop base rest := ih hcr
            linarith
      · exact le_refl 0

/-- The accrued tax is monotone in the base on a valid table. -/
theorem taxLoop_mono {bs : List TaxBracket} {l b1 b2 : ℚ}
    (hc : chainFromB l bs = true) (hb : b1 ≤ b2) :
    taxLoop b1 bs ≤ taxLoop b2 bs := by
  induction bs generalizing l with
  | nil => exact le_refl 0
  | cons br rest ih =>
      obtain ⟨hlow, hr, hrest⟩ := chainFromB_cons.mp hc
      by_cases hg1 : br.lower < b1
      · have hg2 : br.lower < b2 := lt_of_lt_of_le hg1 hb
        rw [taxLoop_cons, taxLoop_cons, if_pos hg1, if_pos hg2]
        rcases hrest with ⟨hupnone, hnil⟩ | ⟨u, hup, hlu, hcr⟩
        · subst hnil
          rw [hupnone]
          simp only [capAt, taxLoop]
          have h1 := mul_le_mul_of_nonneg_right (sub_le_sub_right hb br.lower) hr
          linarith
        · rw [hup]
          simp only [capAt]
          have hmin : min b1 u ≤ min b2 u := min_le_min hb (le_refl u)
          have h1 := mul_le_mul_of_nonneg_right (sub_le_sub_right hmin br.lower) hr
          have h2 := ih (l := u) hcr
          linarith
      · have h0 : taxLoop b1 (br :: rest) = 0 := by rw [taxLoop_cons, if_neg hg1]
        rw [h0]
        exact taxLoop_nonneg hc

/-- Upper bound: the accrued tax grows at most at the table's maximal
rate, measured from the table's starting point. -/
theorem taxLoop_le {bs : List TaxBracket} {l base R : ℚ}
    (hc : chainFromB l bs = true) (hR : ∀ br ∈ bs, br.rate ≤ R)
    (hb : l ≤ base) : taxLoop base bs ≤ R * (base - l) := by
  induction bs generalizing l with
  | nil => exact absurd hc (by simp [chainFromB])
  | cons br rest ih =>
      obtain ⟨hlow, hr, hrest⟩ := chainFromB_cons.mp hc
      subst hlow
      have hRbr : br.rate ≤ R := hR br (List.mem_cons_self br rest)
      have hR0 : 0 ≤ R := le_trans hr hRbr
      rw [taxLoop_cons]
      by_cases hg : br.lower < base
      · rw [if_pos hg]
        rcases hrest with ⟨hupnone, hnil⟩ | ⟨u, hup, hlu, hcr⟩
        · subst hnil
          rw [hupnone]
          simp only [capAt, taxLoop]
          have h1 : (base - br.lower) * br.rate ≤ (base - br.lower) * R :=
            mul_le_mul_of_nonneg_left hRbr (by linarith)
          linarith [mul_comm (base - br.lower) R]
        · rw [hup]
          simp only [capAt]
          by_cases hbu : base ≤ u
          · rw [min_eq_left hbu, taxLoop_zero_of_le hcr hbu]
            have h1 : (base - br.lower) * br.rate ≤ (base - br.lower) * R :=
              mul_le_mul_of_nonneg_left hRbr (by linarith)
            linarith [mul_comm (base - br.lower) R]
          · push_neg at hbu
            have h2 : taxLoop base rest ≤ R * (base - u) :=
              ih hcr (fun br2 hm2 => hR br2 (List.mem_cons_of_mem br hm2))
                (le_of_lt hbu)
            rw [min_eq_right (le_of_lt hbu)]
            have h1 : (u - br.lower) * br.rate ≤ (u - br.lower) * R :=
              mul_le_mul_of_nonneg_left hRbr (by linarith)
            have hdist : R * (u - br.lower) + R * (base - u) = R * (base - br.lower) := by
              ring
            linarith [mul_comm (u - br.lower) R]
      · rw [if_neg hg]
        have hbl : base ≤ br.lower := not_lt.mp hg
        exact mul_nonneg hR0 (by linarith)

/-- Lipschitz bound: the accrued tax moves by at most the maximal rate
times the move of the base (with `taxLoop_mono`, this is the continuity of
the piecewise-linear bracket function, stated over exact rationals). -/
theorem taxLoop_sub_le {bs : List TaxBracket} {l b1 b2 R : ℚ}
    (hc : chainFromB l bs = true) (hR : ∀ br ∈ bs, br.rate ≤ R)
    (hb : b1 ≤ b2) : taxLoop b2 bs - taxLoop b1 bs ≤ R * (b2 - b1) := by
  induction bs generalizing l with
  | nil => exact absurd hc (by simp [chainFromB])
  | cons br rest ih =>
      obtain ⟨hlow, hr, hrest⟩ := chainFromB_cons.mp hc
      subst hlow
      have hRbr : br.rate ≤ R := hR br (List.mem_cons_self br rest)
      have hR0 : 0 ≤ R := le_trans hr hRbr
      by_cases hg1 : br.lower < b1
      · have hg2 : br.lower < b2 := lt_of_lt_of_le hg1 hb
        rw [taxLoop_cons, taxLoop_cons, if_pos hg1, if_pos hg2]
        rcases hrest with ⟨hupnone, hnil⟩ | ⟨u, hup, hlu, hcr⟩
        · subst hnil
          rw [hupnone]
          simp only [capAt, taxLoop]
          have h1 : (b2 - b1) * br.rate ≤ (b2 - b1) * R :=
            mul_le_mul_of_nonneg_left hRbr (by linarith)
          linarith [mul_comm (b2 - b1) R]
        · rw [hup]
          simp only [capAt]
          by_cases hu1 : b1 ≤ u
          · by_cases hu2 : b2 ≤ u
            · rw [min_eq_left hu1, min_eq_left hu2,
                taxLoop_zero_of_le hcr hu1, taxLoop_zero_of_le hcr hu2]
              have h1 : (b2 - b1) * br.rate ≤ (b2 - b1) * R :=
                mul_le_mul_of_nonneg_left hRbr (by linarith)
              linarith [mul_comm (b2 - b1) R]
            · push_neg at hu2
              rw [min_eq_left hu1, min_eq_right (le_of_lt hu2),
                taxLoop_zero_of_le hcr hu1]
              have h2 : taxLoop b2 rest ≤ R * (b2 - u) :=
                taxLoop_le hcr
                  (fun br2 hm2 => hR br2 (List.mem_cons_of_mem br hm2))
                  (le_of_lt hu2)
              have h1 : (u - b1) * br.rate ≤ (u - b1) * R :=
                mul_le_mul_of_nonneg_left hRbr (by linarith)
              have hdist : R * (u - b1) + R * (b2 - u) = R * (b2 - b1) := by ring
              linarith [mul_comm (u - b1) R]
          · push_neg at hu1
            rw [min_eq_right (le_of_lt hu1),
              min_eq_right (le_of_lt (lt_of_lt_of_le hu1 hb))]
            have h2 := ih (l := u) hcr
              (fun br2 hm2 => hR br2 (List.mem_cons_of_mem br hm2))
            linarith
      · have h1 : taxLoop b1 (br :: rest) = 0 := by rw [taxLoop_cons, if_neg hg1]
        rw [h1]
        by_cases hg2 : br.lower < b2
        · have hle2 : taxLoop b2 (br :: rest) ≤ R * (b2 - br.lower) :=
            taxLoop_le hc hR (le_of_lt hg2)
          have hb1l : b1 ≤ br.lower := not_lt.mp hg1
          have h3 : R * (b2 - br.lower) ≤ R * (b2 - b1) :=
            mul_le_mul_of_nonneg_left (by linarith) hR0
          linarith
        · have h2 : taxLoop b2 (br :: rest) = 0 := by rw [taxLoop_cons, if_neg hg2]
          rw [h2]
          have := mul_nonneg hR0 (sub_nonneg.mpr hb)
          linarith

/-- Pointwise evaluation of the tax inside a bracket of a valid table. -/
theorem taxLoop_slope {bs : List TaxBracket} {l b1 b2 : ℚ} {br0 : TaxBracket}
    (hc : chainFromB l bs = true) (hm : br0 ∈ bs)
    (hl1 : br0.lower ≤ b1) (h12 : b1 ≤ b2) (hu2 : uOK b2 br0.upper) :
    taxLoop b2 bs - taxLoop b1 bs = br0.rate * (b2 - b1) := by
  induction bs generalizing l with
  | nil => cases hm
  | cons br rest ih =>
      obtain ⟨hlow, hr, hrest⟩ := chainFromB_cons.mp hc
      subst hlow
      rcases List.mem_cons.mp hm with heq | hmem
      · subst heq
        have heval : ∀ base : ℚ, br0.lower ≤ base → uOK base br0.upper →
            taxLoop base (br0 :: rest) = (base - br0.lower) * br0.rate := by
          intro base hbase hub
          by_cases hg : br0.lower < base
          · rw [taxLoop_cons, if_pos hg]
            rcases hrest with ⟨hupnone, hnil⟩ | ⟨u, hup, hlu, hcr⟩
            · subst hnil
              rw [hupnone]
              simp only [capAt, taxLoop]
              ring
            · rw [hup] at hub ⊢
              simp only [capAt]
              simp only [uOK] at hub
              rw [min_eq_left hub, taxLoop_zero_of_le hcr hub]
              ring
          · have hbl : base = br0.lower := le_antisymm (not_lt.mp hg) hbase
            rw [taxLoop_cons, if_neg hg, hbl]
            ring
        have hub1 : uOK b1 br0.upper := by
          cases h : br0.upper with
          | none => trivial
          | some u =>
              rw [h] at hu2
              simp only [uOK] at hu2 ⊢
              linarith
        rw [heval b1 hl1 hub1, heval b2 (le_trans hl1 h12) hu2]
        ring
      · rcases hrest with ⟨-, hnil⟩ | ⟨u, hup, hlu, hcr⟩
        · subst hnil; cases hmem
        · have hub : u ≤ br0.lower := chain_le_lower hcr hmem
          have hub1 : u ≤ b1 := le_trans hub hl1
          have hg1 : br.lower < b1 := lt_of_lt_of_le hlu hub1
          have hg2 : br.lower < b2 := lt_of_lt_of_le hg1 h12
          rw [taxLoop_cons, taxLoop_cons, if_pos hg1, if_pos hg2, hup]
          simp only [capAt]
          rw [min_eq_right hub1, min_eq_right (le_trans hub1 h12)]
          have h3 := ih hcr hmem
          linarith

/-- Every rate of a table is at most `maxRate`. -/
theorem rate_le_maxRate {bs : List TaxBracket} {br : TaxBracket} (h : br ∈ bs) :
    br.rate ≤ maxRate bs := by
  induction bs with
  | nil => cases h
  | cons b rest ih =>
      rcases List.mem_cons.mp h with heq | hm
      · subst heq
        simp only [maxRate]
        exact le_max_left _ _
      · simp only [maxRate]
        exact le_trans (ih hm) (le_max_right _ _)

/-- The `Catalonia` table is a valid chain from 0. -/
theorem cataloniaValid : chainFromB 0 cataloniaBrackets = true := by
  simp only [cataloniaBrackets, chainFromB, Bool.and_eq_true, decide_eq_true_eq]
  norm_num

/-- The `Madrid` table is a valid chain from 0. -/
theorem madridValid : chainFromB 0 madridBrackets = true := by
  simp only [madridBrackets, chainFromB, Bool.and_eq_true, decide_eq_true_eq]
  norm_num

/-- The `Extremadura` table is a valid chain from 0. -/
theorem extremaduraValid : chainFromB 0 extremaduraBrackets = true := by
  simp only [extremaduraBrackets, chainFromB, Bool.and_eq_true, decide_eq_true_eq]
  norm_num

/-- The `Galicia` table is a valid chain from 0. -/
theorem galiciaValid : chainFromB 0 galiciaBrackets = true := by
  simp only [galiciaBrackets, chainFromB, Bool.and_eq_true, decide_eq_true_eq]
  norm_num

/-- The `Asturias` table is a valid chain from 0. -/
theorem asturiasValid : chainFromB 0 asturiasBrackets = true := by
  simp only [asturiasBrackets, chainFromB, Bool.and_eq_true, decide_eq_true_eq]
  norm_num

/-- The `Valencia` table is a valid chain from 0. -/
theorem valenciaValid : chainFromB 0 valenciaBrackets = true := by
  simp only [valenciaBrackets, chainFromB, Bool.and_eq_true, decide_eq_true_eq]
  norm_num

/-- The `default` table is a valid chain from 0. -/
theorem defaultValid : chainFromB 0 defaultBrackets = true := by
  simp only [defaultBrackets, chainFromB, Bool.and_eq_true, decide_eq_true_eq]
  norm_num

/-- Every region string resolves to a valid bracket table. -/
theorem regionalScales_valid (region : String) :
    chainFromB 0 (regionalScales region) = true := by
  unfold regionalScales
  split
  · exact cataloniaValid
  split
  · exact madridValid
  split
  · exact extremaduraValid
  split
  · exact galiciaValid
  split
  · exact asturiasValid
  split
  · exact valenciaValid
  exact defaultValid

/-- C2: for every region string, `calculate_ip_tax` is a total function of
the base with `calculate_ip_tax 0 region = 0`; the region's bracket table
is strictly ascending, gap-free and terminates at infinity
(`chainFromB 0`); the tax is non-decreasing in the base; it is continuous
piecewise-linear, expressed exactly as the Lipschitz bound by the table's
maximal rate together with the per-bracket slope identity: within each
bracket the tax moves by exactly that bracket's marginal rate times the
move of the base. -/
theorem ip_tax_bracket_properties (region : String) :
    chainFromB 0 (regionalScales region) = true
    ∧ calculate_ip_tax 0 region = 0
    ∧ (∀ b1 b2 : ℚ, b1 ≤ b2 →
        calculate_ip_tax b1 region ≤ calculate_ip_tax b2 region)
    ∧ (∀ b1 b2 : ℚ, b1 ≤ b2 →
        calculate_ip_tax b2 region - calculate_ip_tax b1 region ≤
          maxRate (regionalScales region) * (b2 - b1))
    ∧ (∀ br ∈ regionalScales region, ∀ b1 b2 : ℚ,
        br.lower ≤ b1 → b1 ≤ b2 → uOK b2 br.upper →
        calculate_ip_tax b2 region - calculate_ip_tax b1 region =
          br.rate * (b2 - b1)) := by
  have hv := regionalScales_valid region
  exact ⟨hv, taxLoop_zero_of_le hv (le_refl 0),
    fun b1 b2 hb => taxLoop_mono hv hb,
    fun b1 b2 hb => taxLoop_sub_le hv (fun br hm => rate_le_maxRate hm) hb,
    fun br hm b1 b2 h1 h12 h2 => taxLoop_slope hv hm h1 h12 h2⟩

/-- C2 witness: on `Catalonia`, the tax of 0 is 0 and between 170000 and
200000 (inside the second bracket) the tax grows at exactly rate 0.00315. -/
theorem ip_tax_bracket_properties_witness :
    calculate_ip_tax 0 "Catalonia" = 0 ∧
      calculate_ip_tax 200000 "Catalonia" - calculate_ip_tax 170000 "Catalonia" =
        0.00315 * (200000 - 170000) :=
  ⟨(ip_tax_bracket_properties "Catalonia").2.1,
    (ip_tax_bracket_properties "Catalonia").2.2.2.2
      ⟨167129.45, some 334252.88, 0.00315⟩
      (by simp [regionalScales, cataloniaBrackets])
      170000 200000 (by with_unfolding_all decide) (by with_unfolding_all decide)
      (by with_unfolding_all decide)⟩

/-- C10: the region lookup of `calculate_ip_tax` is an exact,
case-sensitive string match against the capitalized keys; every other
region string (such as the lowercase names the pipeline produces) falls
back to the `default` table. -/
theorem region_lookup_default (region : String) (base : ℚ)
    (h : region ∉ (["Catalonia", "Madrid", "Extremadura", "Galicia",
      "Asturias", "Valencia"] : List String)) :
    calculate_ip_tax base region = calculate_ip_tax base "default" := by
  simp only [List.mem_cons, List.not_mem_nil, or_false, not_or] at h
  obtain ⟨h1, h2, h3, h4, h5, h6⟩ := h
  unfold calculate_ip_tax regionalScales
  rw [if_neg h1, if_neg h2, if_neg h3, if_neg h4, if_neg h5, if_neg h6]
  rfl

/-- C10 witness: the all-lowercase `"catalonia"` is none of the
capitalized keys and is taxed by the `default` table. -/
theorem region_lookup_default_witness :
    "catalonia" ∉ (["Catalonia", "Madrid", "Extremadura", "Galicia",
        "Asturias", "Valencia"] : List String) ∧
      calculate_ip_tax 300000 "catalonia" = calculate_ip_tax 300000 "default" :=
  ⟨by decide, region_lookup_default "catalonia" 300000 (by decide)⟩

/-- C1: the joint-cap step is single-shot; a unit over the cap either ends
exactly at the cap (so wealth tax + income tax is at most 0.60 times
income) or ends at exactly 20% of its pre-cap wealth tax, and a unit not
over the cap keeps its wealth tax unchanged. -/
theorem joint_cap_single_shot (wt pit income : ℚ) :
    (0.60 * income < wt + pit →
      (apply_tax_cap wt pit income + pit ≤ 0.60 * income ∨
        apply_tax_cap wt pit income = 0.2 * wt)) ∧
    (¬ 0.60 * income < wt + pit → apply_tax_cap wt pit income = wt) := by
  constructor
  · intro h
    simp only [apply_tax_cap, if_pos h]
    rcases max_choice (0.2 * wt) (0.60 * income - pit) with hmax | hmax
    · exact Or.inr hmax
    · left
      rw [hmax]
      linarith
  · intro h
    simp only [apply_tax_cap, if_neg h]

/-- C1 witness: a unit over the cap (wealth tax 100, income tax 0, income
50) and a unit under the cap (wealth tax 7, income tax 1, income 100). -/
theorem joint_cap_single_shot_witness :
    (apply_tax_cap 100 0 50 + 0 ≤ 0.60 * 50 ∨ apply_tax_cap 100 0 50 = 0.2 * 100) ∧
      apply_tax_cap 7 1 100 = 7 :=
  ⟨(joint_cap_single_shot 100 0 50).1 (by with_unfolding_all decide),
    (joint_cap_single_shot 7 1 100).2 (by with_unfolding_all decide)⟩

/-- The cap step maps a zero wealth tax to zero: over the cap it takes
`max(0.2 * 0, cap - pit)` and `cap - pit` is negative there. -/
theorem apply_tax_cap_zero (pit income : ℚ) : apply_tax_cap 0 pit income = 0 := by
  simp only [apply_tax_cap]
  split
  · next h =>
      have hle : 0.60 * income - pit ≤ 0.2 * 0 := by linarith
      rw [max_eq_left hle]
      norm_num
  · rfl

/-- C3 (amended): the dropout flag that zeroes the wealth tax is the first
`assign_erosion` draw, made inside `run_tax_simulation`; with respect to
that draw the zeroing holds and survives the cap step, and the migration
and madrid clauses hold as stated. The result table's `Dropout` column,
however, is redrawn by the second `assign_erosion` call
(see the counterexample). -/
theorem zeroing_overrides_amended (u : SimUnit) (d1 d2 m : Bool) :
    (d1 = true → (run_unit_tax_pipeline u d1 d2 m).wealthTax = 0)
    ∧ (m = true → (run_unit_tax_pipeline u d1 d2 m).wealthTax = 0 ∧
        (run_unit_tax_pipeline u d1 d2 m).taxableWealthEroded = 0)
    ∧ (u.region.toLower = "madrid" →
        (run_unit_tax_pipeline u d1 d2 m).wealthTax = 0) := by
  refine ⟨?_, ?_, ?_⟩
  · intro hd
    subst hd
    simp only [run_unit_tax_pipeline, if_true, apply_tax_cap_zero]
    split
    · rfl
    · split <;> rfl
  · intro hm
    subst hm
    exact ⟨by simp [run_unit_tax_pipeline], by simp [run_unit_tax_pipeline]⟩
  · intro hmad
    simp only [run_unit_tax_pipeline, hmad, if_true]
    split <;> rfl

/-- C3 counterexample: a unit with positive eroded base in `catalonia`
whose first dropout draw is 0 and second is 1 carries a final `Dropout`
flag of 1 together with a nonzero final wealth tax. -/
def dropoutCEUnit : SimUnit := ⟨"catalonia", 100000, 200000⟩

/-- C3 counterexample theorem: in the final table the dropout flag does not
imply a zero wealth tax. -/
theorem final_dropout_flag_counterexample :
    (run_unit_tax_pipeline dropoutCEUnit false true false).dropoutFlag = true ∧
      (run_unit_tax_pipeline dropoutCEUnit false true false).wealthTax ≠ 0 := by
  constructor
  · rfl
  · with_unfolding_all decide

/-- C3 witness: the first-draw dropout zeroing, the migration zeroing, and
the madrid override, each at a concrete unit. -/
theorem zeroing_overrides_amended_witness :
    (run_unit_tax_pipeline dropoutCEUnit true false false).wealthTax = 0 ∧
      (run_unit_tax_pipeline dropoutCEUnit false false true).taxableWealthEroded = 0 ∧
      (run_unit_tax_pipeline ⟨"madrid", 50000, 900000⟩ false false false).wealthTax = 0 :=
  ⟨(zeroing_overrides_amended dropoutCEUnit true false false).1 rfl,
    ((zeroing_overrides_amended dropoutCEUnit false false true).2.1 rfl).2,
    (zeroing_overrides_amended ⟨"madrid", 50000, 900000⟩ false false false).2.2
      (by with_unfolding_all decide)⟩

/-- C6: for every household processed by the unit expander, the split
fractions sum to 1, the weights of the derived units sum to the
household's original weight, and every monetary column summed over the
units equals the household's original value. -/
theorem expander_conservation (h : HouseholdRow) (baseThreshold : ℚ)
    (doSplit coin : Bool) :
    (splitRatios coin).sum = 1
    ∧ ((expand_households_to_individuals h baseThreshold doSplit coin).map
        (·.weight)).sum = h.weight
    ∧ ((expand_households_to_individuals h baseThreshold doSplit coin).map
        (·.totalAssets)).sum = h.totalAssets
    ∧ ((expand_households_to_individuals h baseThreshold doSplit coin).map
        (·.debts)).sum = h.debts
    ∧ ((expand_households_to_individuals h baseThreshold doSplit coin).map
        (·.realAssets)).sum = h.realAssets
    ∧ ((expand_households_to_individuals h baseThreshold doSplit coin).map
        (·.financialAssets)).sum = h.financialAssets
    ∧ ((expand_households_to_individuals h baseThreshold doSplit coin).map
        (·.businessAssets)).sum = h.businessAssets
    ∧ ((expand_households_to_individuals h baseThreshold doSplit coin).map
        (·.income)).sum = h.income
    ∧ ((expand_households_to_individuals h baseThreshold doSplit coin).map
        (·.netWealth)).sum = h.netWealth := by
  have hratios : ∀ c : Bool, (splitRatios c).sum = 1 := by
    intro c
    cases c <;> norm_num [splitRatios]
  refine ⟨hratios coin, ?_, ?_, ?_, ?_, ?_, ?_, ?_, ?_⟩
  all_goals
    unfold expand_households_to_individuals
    split
    · cases coin <;> simp [splitRatios, scaleUnit] <;> ring
    · simp [scaleUnit]

/-! ### Synthesizer count lemmas -/

/-- The maximum of a nonempty integer list is one of its entries. -/
theorem listMaxZ_mem : ∀ {l : List ℤ}, l ≠ [] → listMaxZ l ∈ l
  | [], h => absurd rfl h
  | [x], _ => by simp [listMaxZ]
  | x :: y :: rest, _ => by
      simp only [listMaxZ]
      rcases max_choice x (listMaxZ (y :: rest)) with h | h
      · rw [h]
        exact List.mem_cons_self _ _
      · rw [h]
        exact List.mem_cons_of_mem x (listMaxZ_mem (by simp))

/-- Every entry is at most the list maximum. -/
theorem le_listMaxZ : ∀ {l : List ℤ} {x : ℤ}, x ∈ l → x ≤ listMaxZ l
  | [], x, h => absurd h (List.not_mem_nil x)
  | [y], x, h => by
      rcases List.mem_singleton.mp h with rfl
      simp [listMaxZ]
  | y :: z :: rest, x, h => by
      simp only [listMaxZ]
      rcases List.mem_cons.mp h with rfl | hm
      · exact le_max_left _ _
      · exact le_trans (le_listMaxZ hm) (le_max_right _ _)

/-- `idxmaxZ` is a valid index of a nonempty list. -/
theorem idxmaxZ_lt : ∀ {l : List ℤ}, l ≠ [] → idxmaxZ l < l.length
  | [], h => absurd rfl h
  | [x], _ => by simp [idxmaxZ]
  | x :: y :: rest, _ => by
      simp only [idxmaxZ]
      split
      · simp
      · have h2 := idxmaxZ_lt (l := y :: rest) (by simp)
        simp only [List.length_cons] at h2 ⊢
        omega

/-- The entry at `idxmaxZ` is the list maximum. -/
theorem getD_idxmaxZ : ∀ {l : List ℤ}, l ≠ [] → l.getD (idxmaxZ l) 0 = listMaxZ l
  | [], h => absurd rfl h
  | [x], _ => by simp [idxmaxZ, listMaxZ]
  | x :: y :: rest, _ => by
      simp only [idxmaxZ, listMaxZ]
      split
      · next hle =>
          simp only [List.getD_cons_zero]
          exact (max_eq_left hle).symm
      · next hlt =>
          push_neg at hlt
          have ih := getD_idxmaxZ (l := y :: rest) (by simp)
          simp only [List.getD_cons_succ]
          rw [ih]
          exact (max_eq_right (le_of_lt hlt)).symm

/-- Sum after a single `set` at a valid index. -/
theorem sum_set_getD : ∀ (l : List ℤ) (i : ℕ) (x : ℤ), i < l.length →
    (l.set i x).sum = l.sum - l.getD i 0 + x
  | [], i, x, h => by simp at h
  | a :: l, 0, x, _ => by
      simp only [List.set, List.sum_cons, List.getD_cons_zero]
      ring
  | a :: l, i + 1, x, h => by
      simp only [List.set, List.sum_cons, List.getD_cons_succ]
      rw [sum_set_getD l i x (by simpa using h)]
      ring

/-- `set` leaves other indices unchanged. -/
theorem getD_set_ne : ∀ (l : List ℤ) (i j : ℕ) (x : ℤ), i ≠ j →
    (l.set j x).getD i 0 = l.getD i 0
  | [], _, _, _, _ => by simp [List.set]
  | a :: l, 0, 0, x, h => absurd rfl h
  | a :: l, 0, j + 1, x, _ => by simp [List.set]
  | a :: l, i + 1, 0, x, _ => by simp [List.set]
  | a :: l, i + 1, j + 1, x, h => by
      simp only [List.set, List.getD_cons_succ]
      exact getD_set_ne l i j x (fun hh => h (by rw [hh]))

/-- `set` writes at a valid index. -/
theorem getD_set_self : ∀ (l : List ℤ) (j : ℕ) (x : ℤ), j < l.length →
    (l.set j x).getD j 0 = x
  | [], j, x, h => by simp at h
  | a :: l, 0, x, _ => rfl
  | a :: l, j + 1, x, h => by
      simp only [List.set, List.getD_cons_succ]
      exact getD_set_self l j x (by simpa using h)

/-- Length of the repeated region column: the sum of `toNat` counts. -/
theorem flatten_zip_length : ∀ (rs : List RegionShare) (cs : List ℤ),
    rs.length = cs.length →
    ((List.zipWith (fun r c => List.replicate c.toNat r.region) rs cs).flatten).length
      = (cs.map Int.toNat).sum
  | [], [], _ => rfl
  | [], c :: cs, h => by simp at h
  | r :: rs, [], h => by simp at h
  | r :: rs, c :: cs, h => by
      simp only [List.zipWith_cons_cons, List.flatten_cons, List.length_append,
        List.length_replicate, List.map_cons, List.sum_cons]
      rw [flatten_zip_length rs cs (by simpa using h)]

/-- Cast of a `toNat`-sum of a list of nonnegative integers. -/
theorem sum_toNat_eq : ∀ (cs : List ℤ), (∀ c ∈ cs, 0 ≤ c) →
    ((cs.map Int.toNat).sum : ℤ) = cs.sum
  | [], _ => rfl
  | c :: cs, h => by
      simp only [List.map_cons, List.sum_cons, Nat.cast_add]
      rw [sum_toNat_eq cs (fun d hd => h d (List.mem_cons_of_mem c hd)),
        Int.toNat_of_nonneg (h c (List.mem_cons_self c cs))]

/-- C8: for region shares summing to 1, the adjusted per-region counts sum
exactly to `round(N / avg_household_size)`; each count is the rounded
share-times-total except the first entry holding the maximal rounded
count, which additionally receives the whole rounding residual; and the
generated region column has exactly that many rows. -/
theorem household_counts_sum (rs : List RegionShare) (pop : ℕ) (avgSize : ℚ)
    (tot : ℤ) (raw counts : List ℤ)
    (hne : rs ≠ []) (hsum : (rs.map (·.share)).sum = 1)
    (htot : tot = totalHouseholdsOf pop avgSize)
    (hraw : raw = rawCounts (rs.map (·.share)) tot)
    (hcounts : counts = adjustCounts raw tot) :
    counts.sum = tot
    ∧ (∀ i : ℕ, i ≠ idxmaxZ raw → counts.getD i 0 = raw.getD i 0)
    ∧ counts.getD (idxmaxZ raw) 0 = raw.getD (idxmaxZ raw) 0 + (tot - raw.sum)
    ∧ (∀ c ∈ raw, c ≤ raw.getD (idxmaxZ raw) 0)
    ∧ ((∀ c ∈ counts, 0 ≤ c) →
        ((generate_scaled_households rs pop avgSize).1).length = tot.toNat) := by
  have hrawne : raw ≠ [] := by
    rw [hraw, rawCounts]
    intro hemp
    apply hne
    have := congrArg List.length hemp
    simp only [List.length_map, List.length_nil] at this
    exact List.eq_nil_of_length_eq_zero this
  have hrawlen : raw.length = rs.length := by
    rw [hraw, rawCounts]
    simp
  have hidx : idxmaxZ raw < raw.length := idxmaxZ_lt hrawne
  have hmax : ∀ c ∈ raw, c ≤ raw.getD (idxmaxZ raw) 0 := by
    intro c hc
    rw [getD_idxmaxZ hrawne]
    exact le_listMaxZ hc
  have hclen : counts.length = raw.length := by
    rw [hcounts, adjustCounts]
    split
    · rfl
    · simp [List.length_set]
  have hkey : counts.sum = tot
      ∧ (∀ i : ℕ, i ≠ idxmaxZ raw → counts.getD i 0 = raw.getD i 0)
      ∧ counts.getD (idxmaxZ raw) 0 = raw.getD (idxmaxZ raw) 0 + (tot - raw.sum) := by
    rw [hcounts, adjustCounts]
    split
    · next hdiff =>
        refine ⟨by omega, fun i _ => rfl, by omega⟩
    · next hdiff =>
        refine ⟨?_, ?_, ?_⟩
        · rw [sum_set_getD raw (idxmaxZ raw) _ hidx]
          ring
        · intro i hi
          exact getD_set_ne raw i (idxmaxZ raw) _ hi
        · rw [getD_set_self raw (idxmaxZ raw) _ hidx]
          ring
  refine ⟨hkey.1, hkey.2.1, hkey.2.2, hmax, ?_⟩
  intro hnn
  have hrows : ((generate_scaled_households rs pop avgSize).1).length =
      (counts.map Int.toNat).sum := by
    rw [generate_scaled_households]
    rw [← htot, ← hraw, ← hcounts]
    exact flatten_zip_length rs counts (by rw [hclen, hrawlen])
  rw [hrows]
  have hcast := sum_toNat_eq counts hnn
  rw [hkey.1] at hcast
  omega

/-- C8 witness: two regions with shares 0.6 and 0.4, population 1000,
average household size 1.6: the counts sum to 625 and 625 rows are
generated. -/
theorem household_counts_sum_witness :
    (adjustCounts (rawCounts (([⟨"north", 0.6⟩, ⟨"south", 0.4⟩] : List RegionShare).map
          (fun r => r.share)) (totalHouseholdsOf 1000 1.6)) (totalHouseholdsOf 1000 1.6)).sum =
        totalHouseholdsOf 1000 1.6
    ∧ ((generate_scaled_households [⟨"north", 0.6⟩, ⟨"south", 0.4⟩] 1000 1.6).1).length =
        (totalHouseholdsOf 1000 1.6).toNat := by
  have h1 : ([⟨"north", 0.6⟩, ⟨"south", 0.4⟩] : List RegionShare) ≠ [] := by simp
  have h2 : (([⟨"north", 0.6⟩, ⟨"south", 0.4⟩] : List RegionShare).map (fun r => r.share)).sum = 1 := by
    with_unfolding_all decide
  have h := household_counts_sum [⟨"north", 0.6⟩, ⟨"south", 0.4⟩] 1000 1.6 _ _ _ h1 h2 rfl rfl rfl
  exact ⟨h.1, h.2.2.2.2 (by with_unfolding_all decide)⟩

/-- A target-loop iteration leaves row `i` unchanged whenever any mask
membership of `i` forces that region's masked weight to vanish. -/
theorem scaleStep_preserve {f : WeightFrame} {w : ℕ → ℚ} {rt : String × ℚ}
    {i : ℕ} (h : taxpayerMask f rt.1 i → maskedWeight f rt.1 = 0) :
    scaleStep f w rt i = w i := by
  simp only [scaleStep]
  split
  · rfl
  split
  · rfl
  next h1 h2 =>
    by_cases hm : taxpayerMask f rt.1 i
    · exact absurd (h hm) h2
    · simp only [if_neg hm]

/-- The whole target loop leaves row `i` unchanged under the same
condition for every target entry. -/
theorem foldl_scaleStep_preserve (f : WeightFrame) (ts : List (String × ℚ))
    (w : ℕ → ℚ) (i : ℕ)
    (h : ∀ rt ∈ ts, taxpayerMask f rt.1 i → maskedWeight f rt.1 = 0) :
    (ts.foldl (scaleStep f) w) i = w i := by
  induction ts generalizing w with
  | nil => rfl
  | cons rt ts ih =>
      simp only [List.foldl_cons]
      rw [ih (scaleStep f w rt) (fun rt2 hm => h rt2 (List.mem_cons_of_mem rt hm))]
      exact scaleStep_preserve (h rt (List.mem_cons_self rt ts))

/-- C9: a target region whose taxpayer mask is empty or carries zero total
`Final_Weight` (both give a zero masked sum) is skipped: every unit of that
region keeps its final weight; and any unit outside every targeted
region-and-taxpayer mask keeps its final weight in all cases. The embedded
function is total: the loop has no raising path. -/
theorem taxpayer_scaling_skip (targets : List (String × ℚ)) (f : WeightFrame) :
    (∀ r t, (r, t) ∈ targets → maskedWeight (normRegion f) r = 0 →
      ∀ i, (normRegion f).region i = r →
        (scale_final_weights_by_taxpayer_counts targets f).finalWeight i =
          f.finalWeight i)
    ∧ (∀ i, (∀ rt ∈ targets, ¬ taxpayerMask (normRegion f) rt.1 i) →
        (scale_final_weights_by_taxpayer_counts targets f).finalWeight i =
          f.finalWeight i) := by
  constructor
  · intro r t hmem hmw i hreg
    show (targets.foldl (scaleStep (normRegion f)) (normRegion f).finalWeight) i =
      f.finalWeight i
    rw [foldl_scaleStep_preserve]
    · rfl
    · intro rt hrt hmask
      have hr : rt.1 = r := by rw [← hmask.1]; exact hreg
      rw [hr]
      exact hmw
  · intro i hout
    show (targets.foldl (scaleStep (normRegion f)) (normRegion f).finalWeight) i =
      f.finalWeight i
    rw [foldl_scaleStep_preserve]
    · rfl
    · intro rt hrt hmask
      exact absurd hmask (hout rt hrt)

/-- C9 witness frame: row 0 in `Galicia` but not a taxpayer (weight 2),
row 1 a taxpayer in `madrid` (weight 3). -/
def c9Frame : WeightFrame :=
  ⟨2, fun i => if i = 0 then "Galicia" else "madrid",
    fun i => if i = 0 then false else true,
    fun i => if i = 0 then 2 else 3⟩

/-- C9 witness: with target map `{galicia: 100}` and no simulated galicia
taxpayers, both rows keep their final weights. -/
theorem taxpayer_scaling_skip_witness :
    (scale_final_weights_by_taxpayer_counts [("galicia", 100)] c9Frame).finalWeight 0 =
        c9Frame.finalWeight 0
    ∧ (scale_final_weights_by_taxpayer_counts [("galicia", 100)] c9Frame).finalWeight 1 =
        c9Frame.finalWeight 1 :=
  ⟨(taxpayer_scaling_skip [("galicia", 100)] c9Frame).1 "galicia" 100 (by simp)
      (by with_unfolding_all decide) 0 (by with_unfolding_all decide),
    (taxpayer_scaling_skip [("galicia", 100)] c9Frame).2 1 (by with_unfolding_all decide)⟩

/-! ### Reweighting lemmas -/

/-- The fixed target-share vector sums to 1. -/
theorem targetSharesList_sum : targetSharesList.sum = 1 := by
  norm_num [targetSharesList]

/-- The renormalized target shares over the ten bins sum to 1. -/
theorem targetShareN_sum : ∑ k ∈ Finset.range 10, targetShareN k = 1 := by
  simp only [targetShareN, targetSharesList_sum, div_one]
  norm_num [targetSharesList, Finset.sum_range_succ]

/-- A bin's weighted value is nonnegative for nonnegative data. -/
theorem binWeightedValue_nonneg (F : ReweightFrame)
    (hv : ∀ i ∈ Finset.range F.n, 0 ≤ F.value i)
    (hw : ∀ i ∈ Finset.range F.n, 0 ≤ F.weight i) (k : ℕ) :
    0 ≤ binWeightedValue F k :=
  Finset.sum_nonneg fun i hi => by
    split
    · exact mul_nonneg (hv i hi) (hw i hi)
    · exact le_refl 0

/-- C4 (amended): when every rank bin carries a nonzero weighted value,
`reweight_to_match_percentile_shares` succeeds in its single pass, every
adjusted weight is a well-defined rational (no float division by zero),
and each bin's share of total weighted value computed with the adjusted
weights equals the renormalized target share exactly (hence within 1e-9). -/
theorem reweight_matches_targets_amended (F : ReweightFrame)
    (hbin : ∀ i ∈ Finset.range F.n, F.bin i ∈ Finset.range 10)
    (hv : ∀ i ∈ Finset.range F.n, 0 ≤ F.value i)
    (hw : ∀ i ∈ Finset.range F.n, 0 ≤ F.weight i)
    (hA : ∀ k ∈ Finset.range 10, binWeightedValue F k ≠ 0) :
    reweight_to_match_percentile_shares F = Except.ok (adjustedWeightOpt F)
    ∧ (∀ i ∈ Finset.range F.n, adjustedWeightOpt F i = some (adjustedWeight F i))
    ∧ (∀ k ∈ Finset.range 10, adjustedBinShare F k = targetShareN k) := by
  have hApos : ∀ k ∈ Finset.range 10, 0 < binWeightedValue F k := fun k hk =>
    lt_of_le_of_ne (binWeightedValue_nonneg F hv hw k) (Ne.symm (hA k hk))
  have hTpos : 0 < totalWeightedValue F := by
    refine Finset.sum_pos' (fun k hk => le_of_lt (hApos k hk)) ?_
    exact ⟨0, by norm_num, hApos 0 (by norm_num)⟩
  have hT : totalWeightedValue F ≠ 0 := ne_of_gt hTpos
  have hnonempty : ∀ k ∈ Finset.range 10, binNonempty F k := by
    intro k hk
    by_contra hemp
    apply hA k hk
    refine Finset.sum_eq_zero fun i hi => ?_
    rw [if_neg]
    intro hbik
    exact hemp ⟨i, hi, hbik⟩
  have hsome : ∀ i ∈ Finset.range F.n,
      adjustedWeightOpt F i = some (adjustedWeight F i) := by
    intro i hi
    have hs : actualShare F (F.bin i) ≠ 0 :=
      div_ne_zero (hA (F.bin i) (hbin i hi)) hT
    simp only [actualShare] at hs
    simp only [adjustedWeightOpt, scalingFactorOpt, actualShareOpt, if_neg hT]
    rw [if_neg hs]
    simp [adjustedWeight, scalingFactor, actualShare]
  have hnum : ∀ k ∈ Finset.range 10,
      (∑ i ∈ Finset.range F.n, if F.bin i = k then F.value i * adjustedWeight F i else 0)
        = targetShareN k * totalWeightedValue F := by
    intro k hk
    rw [← Finset.sum_filter]
    have hstep : ∀ i ∈ (Finset.range F.n).filter (fun i => F.bin i = k),
        F.value i * adjustedWeight F i =
          F.value i * F.weight i * (targetShareN k / actualShare F k) := by
      intro i hi
      obtain ⟨-, hbik⟩ := Finset.mem_filter.mp hi
      simp only [adjustedWeight, scalingFactor, hbik]
      ring
    rw [Finset.sum_congr rfl hstep, ← Finset.sum_mul]
    have hAk : (∑ i ∈ (Finset.range F.n).filter (fun i => F.bin i = k),
        F.value i * F.weight i) = binWeightedValue F k := by
      rw [binWeightedValue, Finset.sum_filter]
    rw [hAk, actualShare, div_div_eq_mul_div, mul_comm,
      div_mul_cancel₀ _ (hA k hk)]
  have hden : (∑ i ∈ Finset.range F.n, F.value i * adjustedWeight F i)
      = totalWeightedValue F := by
    rw [← Finset.sum_fiberwise_of_maps_to hbin
      (fun i => F.value i * adjustedWeight F i)]
    have hinner : ∀ k ∈ Finset.range 10,
        (∑ i ∈ (Finset.range F.n).filter (fun i => F.bin i = k),
          F.value i * adjustedWeight F i)
          = targetShareN k * totalWeightedValue F := by
      intro k hk
      rw [Finset.sum_filter]
      exact hnum k hk
    rw [Finset.sum_congr rfl hinner, ← Finset.sum_mul, targetShareN_sum, one_mul]
  refine ⟨?_, hsome, ?_⟩
  · rw [reweight_to_match_percentile_shares, if_pos hnonempty]
  · intro k hk
    rw [adjustedBinShare, hnum k hk, hden,
      mul_div_cancel_right₀ (targetShareN k) hT]

/-- C4 witness frame: ten rows, all values and weights 1, rank bin `i`. -/
def onesFrame : ReweightFrame := ⟨10, fun _ => 1, fun _ => 1, fun i => i⟩

/-- C4 witness: on the all-ones frame, bin 5's adjusted share is the
renormalized target share. -/
theorem reweight_matches_targets_amended_witness :
    adjustedBinShare onesFrame 5 = targetShareN 5 :=
  (reweight_matches_targets_amended onesFrame (by decide)
      (by with_unfolding_all decide) (by with_unfolding_all decide)
      (by with_unfolding_all decide)).2.2 5 (by decide)

/-- C4 counterexample frame: ten rows in ten rank bins, weights 1, all
values 1 except the bin 3 row, whose value is 0. -/
def zeroBinFrame : ReweightFrame :=
  ⟨10, fun i => if i = 3 then 0 else 1, fun _ => 1, fun i => i⟩

/-- C4 counterexample: a dataset with positive total weighted value on
which the reweighting does not bring every bin's share within 1e-9 of its
target: bin 3 has value 0 but target share 0.04, its scaling factor is a
division by zero (an undefined float weight, modeled as `none`), and its
adjusted share misses the target by 0.04. -/
theorem reweight_zero_bin_counterexample :
    0 < totalWeightedValue zeroBinFrame
    ∧ adjustedWeightOpt zeroBinFrame 3 = none
    ∧ ¬ (∀ k ∈ Finset.range 10,
        |adjustedBinShare zeroBinFrame k - targetShareN k| ≤ 1 / 1000000000) := by
  refine ⟨by with_unfolding_all decide, by with_unfolding_all decide, ?_⟩
  intro hcl
  have h3 := hcl 3 (by decide)
  revert h3
  with_unfolding_all decide

/-- C7: with zero total weighted value, the reweighting neither raises nor
divides by zero: it returns normally (given the ten bins present) and every
adjusted weight is the NA marker (`none`, the float `NaN`/`inf` outcome of
the zero division), the defined neutral result the spec prescribes. -/
theorem reweight_zero_total_neutral (F : ReweightFrame)
    (hbins : ∀ k ∈ Finset.range 10, binNonempty F k)
    (h0 : totalWeightedValue F = 0) :
    reweight_to_match_percentile_shares F = Except.ok (adjustedWeightOpt F)
    ∧ ∀ i : ℕ, adjustedWeightOpt F i = none := by
  constructor
  · rw [reweight_to_match_percentile_shares, if_pos hbins]
  · intro i
    simp [adjustedWeightOpt, scalingFactorOpt, actualShareOpt, h0]

/-- C7 witness frame: ten rows with value 0 and weight 1 in ten bins. -/
def zeroFrame : ReweightFrame := ⟨10, fun _ => 0, fun _ => 1, fun i => i⟩

/-- C7 witness: the zero-value frame returns normally with NA weights. -/
theorem reweight_zero_total_neutral_witness :
    reweight_to_match_percentile_shares zeroFrame =
        Except.ok (adjustedWeightOpt zeroFrame)
    ∧ adjustedWeightOpt zeroFrame 3 = none :=
  ⟨(reweight_zero_total_neutral zeroFrame (by decide)
      (by with_unfolding_all decide)).1,
    (reweight_zero_total_neutral zeroFrame (by decide)
      (by with_unfolding_all decide)).2 3⟩

/-! ### Pareto tail lemmas -/

instance : Inhabited TailUnit := ⟨⟨0, 0, 0, 0, 0⟩⟩

/-- `getD` through `zipWith` at an in-bounds index. -/
theorem zipWith_getD {α β γ : Type} (f : α → β → γ) :
    ∀ (as : List α) (bs : List β) (i : ℕ) (da : α) (db : β) (dc : γ),
      i < as.length → i < bs.length →
      (List.zipWith f as bs).getD i dc = f (as.getD i da) (bs.getD i db)
  | [], _, _, _, _, _, h1, _ => by simp at h1
  | _ :: _, [], _, _, _, _, _, h2 => by simp at h2
  | a :: as, b :: bs, 0, _, _, _, _, _ => rfl
  | a :: as, b :: bs, i + 1, da, db, dc, h1, h2 => by
      simp only [List.zipWith_cons_cons, List.getD_cons_succ]
      exact zipWith_getD f as bs i da db dc (by simpa using h1) (by simpa using h2)

/-- `getD` through an append, left part. -/
theorem getD_append_lt {α : Type} :
    ∀ (xs ys : List α) (i : ℕ) (d : α), i < xs.length →
      (xs ++ ys).getD i d = xs.getD i d
  | [], _, _, _, h => by simp at h
  | x :: xs, ys, 0, d, _ => rfl
  | x :: xs, ys, i + 1, d, h => by
      simp only [List.cons_append, List.getD_cons_succ]
      exact getD_append_lt xs ys i d (by simpa using h)

/-- `getD` through an append, right part. -/
theorem getD_append_ge {α : Type} :
    ∀ (xs ys : List α) (i : ℕ) (d : α), xs.length ≤ i →
      (xs ++ ys).getD i d = ys.getD (i - xs.length) d
  | [], ys, i, d, _ => by simp
  | x :: xs, ys, 0, d, h => by simp at h
  | x :: xs, ys, i + 1, d, h => by
      simp only [List.cons_append, List.getD_cons_succ, List.length_cons]
      rw [getD_append_ge xs ys i d (by simpa using h)]
      congr 1
      omega

/-- `getD` through `take` at an in-bounds index. -/
theorem getD_take {α : Type} :
    ∀ (l : List α) (k i : ℕ) (d : α), i < k →
      (l.take k).getD i d = l.getD i d
  | [], _, _, _, _ => by simp
  | x :: l, 0, i, d, h => by omega
  | x :: l, k + 1, 0, d, _ => rfl
  | x :: l, k + 1, i + 1, d, h => by
      simp only [List.take_succ_cons, List.getD_cons_succ]
      exact getD_take l k i d (by omega)

/-- `getD` through `drop`. -/
theorem getD_drop {α : Type} :
    ∀ (l : List α) (k i : ℕ) (d : α), (l.drop k).getD i d = l.getD (k + i) d
  | l, 0, i, d => by simp
  | [], k + 1, i, d => by simp
  | x :: l, k + 1, i, d => by
      have hidx : k + 1 + i = (k + i) + 1 := by omega
      rw [List.drop_succ_cons, getD_drop l k i d, hidx, List.getD_cons_succ]

/-- A rescaled window's length. -/
theorem paretoRescale_length (s : List ℚ) (c : ℚ) (us : List TailUnit) :
    (paretoRescale s c us).length = min s.length us.length := by
  simp [paretoRescale]

/-- A rescaled window's weighted asset total is the scalar times the
sample-weight dot product. -/
theorem paretoRescale_taSum :
    ∀ (s : List ℚ) (c : ℚ) (us : List TailUnit),
      ((paretoRescale s c us).map (fun u => u.totalAssets * u.weight)).sum =
        c * windowDot s us
  | [], c, us => by simp [paretoRescale, windowDot]
  | a :: s, c, [] => by simp [paretoRescale, windowDot]
  | a :: s, c, u :: us => by
      have ih := paretoRescale_taSum s c us
      simp only [paretoRescale, windowDot, List.zipWith_cons_cons, List.map_cons,
        List.sum_cons] at ih ⊢
      rw [ih]
      ring

/-- C5 (amended): the Pareto tail injection leaves every affected unit's
debt ratio and weight unchanged, recomputing `Debts = Total_Assets * Debt_Ratio`
and `Net_Wealth = Total_Assets - Debts` for exactly the top-10% rows and
leaving all later rows untouched; and each window's aggregate weighted
**total assets** equals its target share of the pre-injection total net
wealth: `t1 * total` for the top-1% window and `t10 * total - t1 * total`
for the next-9% window. (The aggregate weighted net wealth of a window
misses these targets whenever the affected debt ratios are nonzero; see
the counterexample.) -/
theorem pareto_tail_amended (us : List TailUnit) (s1 s10 : List ℚ) (t1 t10 : ℚ)
    (out : List TailUnit)
    (hs1 : s1.length = tailTop1Count us.length)
    (hs10 : s10.length = tailTop10Count us.length - tailTop1Count us.length)
    (hd1 : windowDot s1 (us.take (tailTop1Count us.length)) ≠ 0)
    (hd10 : windowDot s10 ((us.drop (tailTop1Count us.length)).take
      (tailTop10Count us.length - tailTop1Count us.length)) ≠ 0)
    (hout : out = inject_calibrated_pareto_tail us s1 s10 t1 t10) :
    (∀ i : ℕ, i < tailTop10Count us.length →
      (out.getD i default).debtRatio = (us.getD i default).debtRatio
      ∧ (out.getD i default).weight = (us.getD i default).weight
      ∧ (out.getD i default).debts =
          (out.getD i default).totalAssets * (us.getD i default).debtRatio
      ∧ (out.getD i default).netWealth =
          (out.getD i default).totalAssets - (out.getD i default).debts
      ∧ ((out.getD i default).totalAssets ≠ 0 →
          (out.getD i default).debts / (out.getD i default).totalAssets =
            (us.getD i default).debtRatio))
    ∧ out.drop (tailTop10Count us.length) = us.drop (tailTop10Count us.length)
    ∧ ((out.take (tailTop1Count us.length)).map
        (fun u => u.totalAssets * u.weight)).sum = t1 * totalNetWealth us
    ∧ (((out.drop (tailTop1Count us.length)).take
        (tailTop10Count us.length - tailTop1Count us.length)).map
        (fun u => u.totalAssets * u.weight)).sum =
        t10 * totalNetWealth us - t1 * totalNetWealth us := by
  subst hout
  have hk1n : tailTop1Count us.length ≤ us.length := Nat.div_le_self _ _
  have hk10n : tailTop10Count us.length ≤ us.length := Nat.div_le_self _ _
  have hk1k10 : tailTop1Count us.length ≤ tailTop10Count us.length :=
    Nat.div_le_div_left (by norm_num) (by norm_num)
  have hw1len : (us.take (tailTop1Count us.length)).length =
      tailTop1Count us.length := by
    rw [List.length_take]
    omega
  have hw10len : ((us.drop (tailTop1Count us.length)).take
      (tailTop10Count us.length - tailTop1Count us.length)).length =
      tailTop10Count us.length - tailTop1Count us.length := by
    rw [List.length_take, List.length_drop]
    omega
  have hAlen : ∀ c : ℚ,
      (paretoRescale s1 c (us.take (tailTop1Count us.length))).length =
        tailTop1Count us.length := by
    intro c
    rw [paretoRescale_length, hs1, hw1len, min_self]
  have hBlen : ∀ c : ℚ,
      (paretoRescale s10 c ((us.drop (tailTop1Count us.length)).take
        (tailTop10Count us.length - tailTop1Count us.length))).length =
        tailTop10Count us.length - tailTop1Count us.length := by
    intro c
    rw [paretoRescale_length, hs10, hw10len, min_self]
  refine ⟨?_, ?_, ?_, ?_⟩
  · intro i hi
    have hform : ∃ a c : ℚ,
        (inject_calibrated_pareto_tail us s1 s10 t1 t10).getD i default =
          ⟨a * c, a * c * (us.getD i default).debtRatio,
            a * c - a * c * (us.getD i default).debtRatio,
            (us.getD i default).debtRatio, (us.getD i default).weight⟩ := by
      by_cases hik1 : i < tailTop1Count us.length
      · refine ⟨s1.getD i 0,
          t1 * totalNetWealth us /
            windowDot s1 (us.take (tailTop1Count us.length)), ?_⟩
        unfold inject_calibrated_pareto_tail paretoRescale
        rw [List.append_assoc,
          getD_append_lt _ _ i default (by
            rw [List.length_zipWith, hs1, hw1len, min_self]
            exact hik1),
          zipWith_getD _ s1 (us.take (tailTop1Count us.length)) i 0 default default
            (by omega) (by rw [hw1len]; exact hik1),
          getD_take us (tailTop1Count us.length) i default hik1]
      · push_neg at hik1
        refine ⟨s10.getD (i - tailTop1Count us.length) 0,
          (t10 * totalNetWealth us - t1 * totalNetWealth us) /
            windowDot s10 ((us.drop (tailTop1Count us.length)).take
              (tailTop10Count us.length - tailTop1Count us.length)), ?_⟩
        unfold inject_calibrated_pareto_tail paretoRescale
        rw [List.append_assoc,
          getD_append_ge _ _ i default (by
            rw [List.length_zipWith, hs1, hw1len, min_self]
            exact hik1)]
        rw [List.length_zipWith, hs1, hw1len, min_self]
        rw [getD_append_lt _ _ (i - tailTop1Count us.length) default (by
            rw [List.length_zipWith, hs10, hw10len, min_self]
            omega),
          zipWith_getD _ s10 ((us.drop (tailTop1Count us.length)).take
              (tailTop10Count us.length - tailTop1Count us.length))
            (i - tailTop1Count us.length) 0 default default
            (by omega) (by rw [hw10len]; omega),
          getD_take _ _ (i - tailTop1Count us.length) default (by omega),
          getD_drop us (tailTop1Count us.length) (i - tailTop1Count us.length)
            default]
        have hidx : tailTop1Count us.length + (i - tailTop1Count us.length) = i := by
          omega
        rw [hidx]
    obtain ⟨a, c, heq⟩ := hform
    rw [heq]
    exact ⟨rfl, rfl, rfl, rfl, fun hta => mul_div_cancel_left₀ _ hta⟩
  · unfold inject_calibrated_pareto_tail
    rw [List.drop_left']
    rw [List.length_append, hAlen, hBlen]
    omega
  · unfold inject_calibrated_pareto_tail
    rw [List.append_assoc, List.take_left' (hAlen _), paretoRescale_taSum,
      div_mul_cancel₀ _ hd1]
  · unfold inject_calibrated_pareto_tail
    rw [List.append_assoc, List.drop_left' (hAlen _), List.take_left' (hBlen _),
      paretoRescale_taSum, div_mul_cancel₀ _ hd10]

/-- C5 concrete data: 100 sorted rows with assets 2, debts 1, net wealth 1,
debt ratio 1/2, weight 1; Pareto draws all 1. -/
def tailCEUnits : List TailUnit := List.replicate 100 ⟨2, 1, 1, 1/2, 1⟩

/-- C5 concrete output of the injection on `tailCEUnits` with targets
`top1 = 0.2`, `top10 = 0.5`. -/
def tailCEOut : List TailUnit :=
  inject_calibrated_pareto_tail tailCEUnits [1] (List.replicate 9 1) 0.2 0.5

/-- C5 counterexample: on `tailCEUnits` the top-1% window's aggregate
weighted net wealth (10) differs from its target share of total net wealth
(0.2 times 100, that is 20) by far more than any floating tolerance: the
code calibrates the redrawn asset values, not net wealth, and nonzero debt
ratios leave net wealth short of the target. -/
theorem pareto_tail_networth_counterexample :
    ¬ |((tailCEOut.take (tailTop1Count tailCEUnits.length)).map
        (fun u => u.netWealth * u.weight)).sum -
          0.2 * totalNetWealth tailCEUnits| ≤ 1 / 1000000000 := by
  with_unfolding_all decide

/-- C5 witness: on the same data the top-1% window's weighted assets hit
`0.2 * total net wealth` exactly and the rows below the top 10% are
untouched. -/
theorem pareto_tail_amended_witness :
    ((tailCEOut.take (tailTop1Count tailCEUnits.length)).map
        (fun u => u.totalAssets * u.weight)).sum = 0.2 * totalNetWealth tailCEUnits
    ∧ tailCEOut.drop (tailTop10Count tailCEUnits.length) =
        tailCEUnits.drop (tailTop10Count tailCEUnits.length) := by
  have h := pareto_tail_amended tailCEUnits [1] (List.replicate 9 1) 0.2 0.5
    tailCEOut (by with_unfolding_all decide) (by with_unfolding_all decide)
    (by with_unfolding_all decide) (by with_unfolding_all decide) rfl
  exact ⟨h.2.2.1, h.2.1⟩
